import Mathlib

/-!
Verification of the terabox automation pipeline.

Shallow embedding of the fan-in pipeline found in
`terabox_automation.py`, `bot/modules/terabox_automation.py` and
`terabox_config.py`: link extraction, the bounded work queue, the
concurrency gate inside `process_message`, the per-link
download/upload state machine of `download_and_upload_file`
(embedded twice, once per copy, because the two copies differ in
their failure handling), the report emitter and the status handlers.
Strings are modelled as `List Char`; the filesystem of temporary
files as the list of existing paths; network and chat operations as
oracles supplied per sub-file.
-/

/-! ## Configuration constants (Config / TeraboxConfig) -/

def MAX_CONCURRENT_DOWNLOADS : Nat := 3

def QUEUE_MAX_SIZE : Nat := 100

def PROCESS_DELAY : Nat := 2

def MAX_LINKS_PER_MESSAGE : Nat := 10

def DOWNLOAD_RETRIES : Nat := 3

def UPLOAD_RETRIES : Nat := 2

def RETRY_DELAY : Nat := 5

/-! ## Link extractor (`extract_terabox_links`)

Each catalog entry `https?://(?:www\.)?DOMAIN/[^\s]+` is matched by
trying, at a given position, the four case-insensitive literal
alternatives in regex backtracking order
(`https://www.D/`, `https://D/`, `http://www.D/`, `http://D/`),
followed by a greedy nonempty run of non-whitespace characters.
`re.findall` scans left to right, restarting after each
non-overlapping match. -/

def teraboxDomains : List (List Char) :=
  [ ("terabox.com").data
  , ("nephobox.com").data
  , ("4funbox.com").data
  , ("mirrobox.com").data
  , ("momerybox.com").data
  , ("teraboxapp.com").data
  , ("1024tera.com").data
  , ("terabox.app").data
  , ("gibibox.com").data
  , ("goaibox.com").data
  , ("terasharelink.com").data
  , ("teraboxlink.com").data
  , ("freeterabox.com").data
  , ("1024terabox.com").data
  , ("teraboxshare.com").data
  , ("terafileshare.com").data
  , ("terabox.club").data ]

/-- The whitespace class of the regex `\s` on the inputs in scope. -/
def isPySpace (c : Char) : Bool :=
  c = ' ' || c = '\t' || c = '\n' || c = '\r' || c = '\x0b' || c = '\x0c'

/-- Consume the literal `a` case-insensitively from the front of `l`,
returning the remainder. -/
def stripLitCI : List Char → List Char → Option (List Char)
  | [], l => some l
  | _ :: _, [] => none
  | a :: as, c :: cs => if a.toLower = c.toLower then stripLitCI as cs else none

/-- Try a list of literal alternatives in order; return the length
consumed and the remainder of the first that matches. -/
def firstStrip : List (List Char) → List Char → Option (Nat × List Char)
  | [], _ => none
  | a :: as, l =>
    match stripLitCI a l with
    | some r => some (a.length, r)
    | none => firstStrip as l

/-- The four literal alternatives of one catalog pattern, in regex
backtracking order. -/
def domainAlts (d : List Char) : List (List Char) :=
  [ ("https://www.").data ++ d ++ ['/']
  , ("https://").data ++ d ++ ['/']
  , ("http://www.").data ++ d ++ ['/']
  , ("http://").data ++ d ++ ['/'] ]

/-- Match one catalog pattern at the front of `l`: the fixed part then
a greedy nonempty run of non-whitespace. Returns the matched text and
the remainder. -/
def matchAt (d : List Char) (l : List Char) : Option (List Char × List Char) :=
  match firstStrip (domainAlts d) l with
  | none => none
  | some (n, r) =>
    let run := r.takeWhile (fun c => !isPySpace c)
    let rest := r.dropWhile (fun c => !isPySpace c)
    if run.isEmpty then none else some (l.take n ++ run, rest)

/-- Left-to-right non-overlapping scan of `re.findall`, fueled by the
input length (each step consumes at least one character). -/
def findallAux (d : List Char) : Nat → List Char → List (List Char)
  | 0, _ => []
  | _ + 1, [] => []
  | fuel + 1, c :: cs =>
    match matchAt d (c :: cs) with
    | some (m, rest) => m :: findallAux d fuel rest
    | none => findallAux d fuel cs

def findall (d text : List Char) : List (List Char) :=
  findallAux d text.length text

/-- `extract_terabox_links`: all patterns scanned in catalog order,
results concatenated, then deduplicated by `list(set(links))`.
CPython set iteration order is hash-dependent; we model the
deduplication deterministically as keeping the first occurrence, which
preserves membership and duplicate-freeness. -/
def extract_terabox_links (text : List Char) : List (List Char) :=
  ((teraboxDomains.map (fun d => findall d text)).flatten).dedup

/-- `matchAt d m` consumes all of `m`: the matched text, rematched on
its own, is a full match of the pattern. -/
def fullMatchB (d m : List Char) : Bool :=
  decide (matchAt d m = some (m, []))

/-- All contiguous spans of a text. -/
def spans (text : List Char) : List (List Char) :=
  (text.tails.map (fun t => t.inits)).flatten

/-- The text contains no substring that fully matches any catalog
pattern. -/
def noMatch (text : List Char) : Bool :=
  (spans text).all (fun m => teraboxDomains.all (fun d => !fullMatchB d m))

/-! ## Extractor lemmas -/

theorem stripLitCI_decomp : ∀ (a l r : List Char), stripLitCI a l = some r →
    a.length ≤ l.length ∧ l = l.take a.length ++ r := by
  intro a
  induction a with
  | nil =>
    intro l r h
    simp only [stripLitCI, Option.some.injEq] at h
    simp [h]
  | cons x xs ih =>
    intro l r h
    cases l with
    | nil => simp [stripLitCI] at h
    | cons c cs =>
      simp only [stripLitCI] at h
      split at h
      · obtain ⟨h1, h2⟩ := ih cs r h
        refine ⟨by simpa using Nat.succ_le_succ h1, ?_⟩
        simpa [List.take_succ_cons] using h2
      · exact absurd h (by simp)

theorem stripLitCI_take : ∀ (a l r x : List Char), stripLitCI a l = some r →
    stripLitCI a (l.take a.length ++ x) = some x := by
  intro a
  induction a with
  | nil => intro l r x _; simp [stripLitCI]
  | cons b bs ih =>
    intro l r x h
    cases l with
    | nil => simp [stripLitCI] at h
    | cons c cs =>
      simp only [stripLitCI] at h
      split at h
      · rename_i hc
        simpa [List.take_succ_cons, stripLitCI, hc] using ih cs r x h
      · exact absurd h (by simp)

theorem stripLitCI_extend : ∀ (a m t y : List Char), stripLitCI a m = some t →
    stripLitCI a (m ++ y) = some (t ++ y) := by
  intro a
  induction a with
  | nil =>
    intro m t y h
    simp only [stripLitCI, Option.some.injEq] at h
    simp [stripLitCI, h]
  | cons b bs ih =>
    intro m t y h
    cases m with
    | nil => simp [stripLitCI] at h
    | cons c cs =>
      simp only [stripLitCI] at h
      split at h
      · rename_i hc
        simpa [stripLitCI, hc] using ih cs t y h
      · exact absurd h (by simp)

theorem firstStrip_decomp : ∀ (alts : List (List Char)) (l : List Char) (n : Nat)
    (r : List Char), firstStrip alts l = some (n, r) →
    n ≤ l.length ∧ l = l.take n ++ r := by
  intro alts
  induction alts with
  | nil => intro l n r h; simp [firstStrip] at h
  | cons a as ih =>
    intro l n r h
    simp only [firstStrip] at h
    cases ha : stripLitCI a l with
    | some r0 =>
      rw [ha] at h
      simp only [Option.some.injEq, Prod.mk.injEq] at h
      obtain ⟨hn, hr⟩ := h
      obtain ⟨h1, h2⟩ := stripLitCI_decomp a l r0 ha
      subst hn
      subst hr
      exact ⟨h1, h2⟩
    | none =>
      rw [ha] at h
      exact ih l n r h

theorem firstStrip_rematch : ∀ (alts : List (List Char)) (l : List Char) (n : Nat)
    (r y rest : List Char), firstStrip alts l = some (n, r) → r = y ++ rest →
    firstStrip alts (l.take n ++ y) = some (n, y) := by
  intro alts
  induction alts with
  | nil => intro l n r y rest h _; simp [firstStrip] at h
  | cons a as ih =>
    intro l n r y rest h hyr
    have hdec := firstStrip_decomp (a :: as) l n r h
    simp only [firstStrip] at h ⊢
    cases ha : stripLitCI a l with
    | some r0 =>
      rw [ha] at h
      simp only [Option.some.injEq, Prod.mk.injEq] at h
      obtain ⟨hn, hr⟩ := h
      subst hn
      subst hr
      rw [stripLitCI_take a l (y ++ rest) y (hyr ▸ ha)]
    | none =>
      rw [ha] at h
      have hnone : stripLitCI a (l.take n ++ y) = none := by
        cases hb : stripLitCI a (l.take n ++ y) with
        | none => rfl
        | some t =>
          exfalso
          have hext := stripLitCI_extend a (l.take n ++ y) t rest hb
          rw [List.append_assoc, ← hyr, ← hdec.2] at hext
          rw [ha] at hext
          exact Option.noConfusion hext
      rw [hnone]
      exact ih l n r y rest h hyr

theorem takeWhile_self (p : Char → Bool) : ∀ l : List Char,
    (l.takeWhile p).takeWhile p = l.takeWhile p := by
  intro l
  induction l with
  | nil => rfl
  | cons c cs ih =>
    by_cases hp : p c
    · simp [List.takeWhile_cons, hp, ih]
    · simp [List.takeWhile_cons, hp]

theorem dropWhile_of_takeWhile (p : Char → Bool) : ∀ l : List Char,
    (l.takeWhile p).dropWhile p = [] := by
  intro l
  induction l with
  | nil => rfl
  | cons c cs ih =>
    by_cases hp : p c
    · simp [List.takeWhile_cons, List.dropWhile_cons, hp, ih]
    · simp [List.takeWhile_cons, hp]

theorem matchAt_decomp (d l m rest : List Char) (h : matchAt d l = some (m, rest)) :
    l = m ++ rest := by
  unfold matchAt at h
  cases h1 : firstStrip (domainAlts d) l with
  | none => rw [h1] at h; exact Option.noConfusion h
  | some nr =>
    obtain ⟨n, r⟩ := nr
    rw [h1] at h
    simp only at h
    split at h
    · exact Option.noConfusion h
    · simp only [Option.some.injEq, Prod.mk.injEq] at h
      obtain ⟨hm, hrest⟩ := h
      obtain ⟨hn, hl⟩ := firstStrip_decomp _ _ _ _ h1
      subst hm
      subst hrest
      conv_lhs => rw [hl]
      rw [List.append_assoc, List.takeWhile_append_dropWhile]

theorem matchAt_rematch (d l m rest : List Char) (h : matchAt d l = some (m, rest)) :
    matchAt d m = some (m, []) := by
  unfold matchAt at h
  cases h1 : firstStrip (domainAlts d) l with
  | none => rw [h1] at h; exact Option.noConfusion h
  | some nr =>
    obtain ⟨n, r⟩ := nr
    rw [h1] at h
    simp only at h
    split at h
    · exact Option.noConfusion h
    · rename_i hrun
      simp only [Option.some.injEq, Prod.mk.injEq] at h
      obtain ⟨hm, hrest⟩ := h
      obtain ⟨hn, hl⟩ := firstStrip_decomp _ _ _ _ h1
      have hr : r = r.takeWhile (fun c => !isPySpace c) ++ r.dropWhile (fun c => !isPySpace c) :=
        (List.takeWhile_append_dropWhile _ _).symm
      have h2 := firstStrip_rematch (domainAlts d) l n r
        (r.takeWhile (fun c => !isPySpace c)) (r.dropWhile (fun c => !isPySpace c)) h1 hr
      subst hm
      unfold matchAt
      rw [h2]
      simp only
      rw [takeWhile_self, dropWhile_of_takeWhile]
      rw [if_neg hrun]
      have hlen : (l.take n).length = n := by
        rw [List.length_take]
        exact Nat.min_eq_left hn
      rw [List.take_left' hlen]

theorem fullMatchB_eq_true (d m : List Char) (h : ∃ l rest, matchAt d l = some (m, rest)) :
    fullMatchB d m = true := by
  obtain ⟨l, rest, hl⟩ := h
  unfold fullMatchB
  exact decide_eq_true (matchAt_rematch d l m rest hl)

theorem findallAux_sound (d text : List Char) : ∀ (fuel : Nat) (l a : List Char),
    a ++ l = text → ∀ m ∈ findallAux d fuel l,
    fullMatchB d m = true ∧ ∃ x y, text = x ++ m ++ y := by
  intro fuel
  induction fuel with
  | zero => intro l a _ m hm; simp [findallAux] at hm
  | succ fuel ih =>
    intro l a hal m hm
    cases l with
    | nil => simp [findallAux] at hm
    | cons c cs =>
      simp only [findallAux] at hm
      cases h : matchAt d (c :: cs) with
      | some mr =>
        obtain ⟨m0, rest⟩ := mr
        rw [h] at hm
        have hdec := matchAt_decomp d (c :: cs) m0 rest h
        simp only [List.mem_cons] at hm
        rcases hm with rfl | hm
        · refine ⟨fullMatchB_eq_true d m ⟨c :: cs, rest, h⟩, a, rest, ?_⟩
          rw [← hal, hdec, List.append_assoc]
        · have : (a ++ m0) ++ rest = text := by
            rw [List.append_assoc, ← hdec, hal]
          exact ih rest (a ++ m0) this m hm
      | none =>
        rw [h] at hm
        have : (a ++ [c]) ++ cs = text := by
          rw [List.append_assoc, List.singleton_append, hal]
        exact ih cs (a ++ [c]) this m hm

theorem extract_mem_sound (text m : List Char) (h : m ∈ extract_terabox_links text) :
    (∃ d, d ∈ teraboxDomains ∧ fullMatchB d m = true) ∧ ∃ x y, text = x ++ m ++ y := by
  unfold extract_terabox_links at h
  rw [List.mem_dedup, List.mem_flatten] at h
  obtain ⟨ls, hls, hm⟩ := h
  rw [List.mem_map] at hls
  obtain ⟨d, hd, rfl⟩ := hls
  have := findallAux_sound d text text.length text [] rfl m hm
  exact ⟨⟨d, hd, this.1⟩, this.2⟩

theorem span_of_split (text x m y : List Char) (h : text = x ++ m ++ y) :
    m ∈ spans text := by
  unfold spans
  rw [List.mem_flatten]
  refine ⟨(m ++ y).inits, ?_, ?_⟩
  · rw [List.mem_map]
    exact ⟨m ++ y, (List.mem_tails _ _).mpr ⟨x, by rw [h, List.append_assoc]⟩, rfl⟩
  · exact (List.mem_inits _ _).mpr ⟨y, rfl⟩

theorem extract_empty_of_noMatch (text : List Char) (h : noMatch text = true) :
    extract_terabox_links text = [] := by
  cases he : extract_terabox_links text with
  | nil => rfl
  | cons m ms =>
    exfalso
    have hm : m ∈ extract_terabox_links text := by rw [he]; exact List.mem_cons_self _ _
    obtain ⟨⟨d, hd, hfm⟩, x, y, hxy⟩ := extract_mem_sound text m hm
    unfold noMatch at h
    rw [List.all_eq_true] at h
    have h1 := h m (span_of_split text x m y hxy)
    rw [List.all_eq_true] at h1
    have h2 := h1 d hd
    rw [hfm] at h2
    exact Bool.noConfusion h2

/-! ## Work queue (`queue.Queue(maxsize=QUEUE_MAX_SIZE)` with
`put_nowait` / `get_nowait`)

`put_nowait` raises `Full` exactly when `maxsize > 0` and the queue
already holds `maxsize` items (modelled as `none`); the ingestion
handler catches the exception and drops the item. `get_nowait`
returns `none` on an empty queue. -/

def put_nowait {α : Type} (maxsize : Nat) (q : List α) (x : α) : Option (List α) :=
  if 0 < maxsize ∧ maxsize ≤ q.length then none else some (q ++ [x])

def get_nowait {α : Type} : List α → Option (α × List α)
  | [] => none
  | x :: xs => some (x, xs)

inductive QOp (α : Type) where
  | put (x : α)
  | take

/-- One driver step: a refused put leaves the queue unchanged (the
item is dropped), an empty take leaves it unchanged (the loop sleeps). -/
def queueStep {α : Type} (maxsize : Nat) (q : List α) : QOp α → List α
  | .put x =>
    match put_nowait maxsize q x with
    | none => q
    | some q2 => q2
  | .take =>
    match get_nowait q with
    | none => q
    | some (_, q2) => q2

/-- All queue states reached while running a sequence of operations. -/
def queueStates {α : Type} (maxsize : Nat) : List (QOp α) → List α → List (List α)
  | [], q => [q]
  | op :: ops, q => q :: queueStates maxsize ops (queueStep maxsize q op)

/-! ## Concurrency gate inside `process_message`

`process_message` opens with
`if self.active_downloads >= self.max_downloads: return` inside a
`try:` block whose `finally:` clause runs
`self.active_downloads -= 1` on every exit; admission executes
`self.active_downloads += 1`. The two atomic counter phases of one
call are therefore: -/

/-- The admission check at the top of `process_message` (entry phase):
refuse and leave the counter unchanged at the ceiling, otherwise
increment. -/
def pmEnter (c : Int) : Int :=
  if c ≥ (MAX_CONCURRENT_DOWNLOADS : Int) then c else c + 1

/-- The `finally:` clause of `process_message` (exit phase): always
decrement, also on the refusal exit. -/
def pmFinally (c : Int) : Int := c - 1

inductive GEvent where
  | start (i : Nat)
  | finish (i : Nat)
deriving DecidableEq

def gateStep (c : Int) : GEvent → Int
  | .start _ => pmEnter c
  | .finish _ => pmFinally c

/-- The counter values after each event of an interleaving. -/
def runGate : List GEvent → Int → List Int
  | [], _ => []
  | e :: es, c => gateStep c e :: runGate es (gateStep c e)

/-- An interleaving is valid when every call starts at most once and
every finish belongs to a call that already started and did not finish
yet: exactly the traces the `try ... finally` structure can produce. -/
def validFrom : List Nat → List Nat → List GEvent → Bool
  | _, _, [] => true
  | started, finished, .start i :: es =>
    !(started.contains i) && validFrom (i :: started) finished es
  | started, finished, .finish i :: es =>
    started.contains i && !(finished.contains i) && validFrom started (i :: finished) es

def validTrace (t : List GEvent) : Bool := validFrom [] [] t

/-- Three admitted calls in flight, a fourth call refused, then all
four exits run their `finally` decrement. -/
def refusalTrace : List GEvent :=
  [.start 1, .start 2, .start 3, .start 4, .finish 4, .finish 1, .finish 2, .finish 3]

/-! ## Transfer worker (`download_and_upload_file`)

Oracles: per sub-file index and attempt index, the outcome of the
HTTP fetch and of `send_document`. The filesystem is the list of
existing temporary-file paths. -/

/-- Outcome of fetching one resolved URL. `statusErr`: `session.get`
or `raise_for_status` raises, before the temporary file is created.
`midErr`: an exception while writing chunks, after the file was
created (a partial file exists). -/
inductive FetchOutcome where
  | statusErr
  | midErr
  | ok
deriving DecidableEq

/-- Outcome of `send_document`. -/
inductive UploadOutcome where
  | fail
  | sent (msgId : Nat)
deriving DecidableEq

/-- Result of the resolver `terabox(url)`: a plain direct link, or a
dict with a `contents` list of (url, filename) entries. -/
inductive Resolved where
  | single (directUrl : List Char)
  | multi (contents : List (List Char × List Char))
deriving DecidableEq

/-- The (url, filename) pairs the worker loops over: `zip(file_urls,
filenames)`, both projected from the same `contents` list in the
multi case. -/
def resolvedPairs (r : Resolved) (filename : List Char) : List (List Char × List Char) :=
  match r with
  | .single u => [(u, filename)]
  | .multi contents => contents

structure LinkEnv where
  fetch : Nat → Nat → FetchOutcome
  upload : Nat → Nat → UploadOutcome

/-- Observable state of one transfer: ids of every successful
`send_document` (ground truth, never discarded), the existing
temporary files, and the (sub-file, attempt) pairs at which a fetch
or an upload was tried. -/
structure TState where
  relayed : List Nat
  fs : List (List Char)
  fAtt : List (Nat × Nat)
  uAtt : List (Nat × Nat)
deriving DecidableEq

def emptyT : TState := ⟨[], [], [], []⟩

def fsInsert (p : List Char) (fs : List (List Char)) : List (List Char) :=
  if p ∈ fs then fs else p :: fs

def fsErase (p : List Char) (fs : List (List Char)) : List (List Char) :=
  fs.erase p

/-- Temporary path of the root copy: `f"temp_{file_name}"`. -/
def rootTemp (name : List Char) : List Char := ("temp_").data ++ name

/-- Temporary path of the bot/modules copy:
`f"downloads/terabox_{file_name}"`. -/
def moduleTemp (name : List Char) : List Char := ("downloads/terabox_").data ++ name

/-- Sub-file loop of the root copy (`terabox_automation.py` lines
150-183). The fetch is not inside the per-file `try`, so a fetch
exception propagates to the outer handler, which returns `[]`,
discarding the ids collected so far; only the upload has a
`try/except/finally`, whose `finally` always removes the temporary
file. A `midErr` fetch leaves the partly written file on disk. -/
def dlRootGo (env : LinkEnv) :
    List (List Char × List Char) → Nat → List Nat → TState → (List Nat × TState)
  | [], _, ids, st => (ids, st)
  | (_, name) :: rest, i, ids, st =>
    let st1 : TState := { st with fAtt := st.fAtt ++ [(i, 0)] }
    match env.fetch i 0 with
    | .statusErr => ([], st1)
    | .midErr => ([], { st1 with fs := fsInsert (rootTemp name) st1.fs })
    | .ok =>
      let temp := rootTemp name
      let st2 : TState := { st1 with fs := fsInsert temp st1.fs, uAtt := st1.uAtt ++ [(i, 0)] }
      match env.upload i 0 with
      | .sent mid =>
        dlRootGo env rest (i + 1) (ids ++ [mid])
          { st2 with relayed := st2.relayed ++ [mid], fs := fsErase temp st2.fs }
      | .fail =>
        dlRootGo env rest (i + 1) ids { st2 with fs := fsErase temp st2.fs }

/-- `download_and_upload_file` of the root copy: resolver failure is
caught by the outer handler and yields `[]`. -/
def download_and_upload_file_root (res : Option Resolved) (filename : List Char)
    (env : LinkEnv) (st : TState) : List Nat × TState :=
  match res with
  | none => ([], st)
  | some r => dlRootGo env (resolvedPairs r filename) 0 [] st

/-- Sub-file loop of the bot/modules copy
(`bot/modules/terabox_automation.py` lines 95-130). Fetch and upload
are both inside the per-file `try`; the handler removes
`temp_file_path` if it exists. `temp_file_path` is assigned only
after `raise_for_status`, so on a `statusErr` the handler reads the
previous iteration's path (`lastTemp`); when no iteration assigned it
yet, the handler itself raises (unbound local) and the outer handler
returns `[]`. The success path removes the file after the upload. -/
def dlModGo (env : LinkEnv) :
    List (List Char × List Char) → Nat → Option (List Char) → List Nat → TState →
    (List Nat × TState)
  | [], _, _, ids, st => (ids, st)
  | (_, name) :: rest, i, lastTemp, ids, st =>
    let st1 : TState := { st with fAtt := st.fAtt ++ [(i, 0)] }
    match env.fetch i 0 with
    | .statusErr =>
      match lastTemp with
      | none => ([], st1)
      | some p =>
        dlModGo env rest (i + 1) lastTemp ids
          { st1 with fs := if p ∈ st1.fs then fsErase p st1.fs else st1.fs }
    | .midErr =>
      let temp := moduleTemp name
      let st2 : TState := { st1 with fs := fsInsert temp st1.fs }
      dlModGo env rest (i + 1) (some temp) ids
        { st2 with fs := if temp ∈ st2.fs then fsErase temp st2.fs else st2.fs }
    | .ok =>
      let temp := moduleTemp name
      let st2 : TState := { st1 with fs := fsInsert temp st1.fs, uAtt := st1.uAtt ++ [(i, 0)] }
      match env.upload i 0 with
      | .sent mid =>
        let st3 : TState := { st2 with relayed := st2.relayed ++ [mid] }
        dlModGo env rest (i + 1) (some temp) (ids ++ [mid])
          { st3 with fs := if temp ∈ st3.fs then fsErase temp st3.fs else st3.fs }
      | .fail =>
        dlModGo env rest (i + 1) (some temp) ids
          { st2 with fs := if temp ∈ st2.fs then fsErase temp st2.fs else st2.fs }

/-- `download_and_upload_file` of the bot/modules copy. -/
def download_and_upload_file_module (res : Option Resolved) (filename : List Char)
    (env : LinkEnv) (st : TState) : List Nat × TState :=
  match res with
  | none => ([], st)
  | some r => dlModGo env (resolvedPairs r filename) 0 none [] st

/-! ## Batch processing (`process_message`) and the report emitter -/

/-- The oracles of one batch: per link index, the resolver result;
per (link, sub-file, attempt), the fetch and upload outcomes. -/
structure BatchEnv where
  resolve : Nat → Option Resolved
  fetch : Nat → Nat → Nat → FetchOutcome
  upload : Nat → Nat → Nat → UploadOutcome

/-- The summary sent by `send_details_summary`: truncated original
text, the candidate links and the uploaded message ids. -/
structure Report where
  shownText : List Char
  truncated : Bool
  links : List (List Char)
  fileIds : List Nat
deriving DecidableEq

/-- `f"TeraboxFile_{i}.bin"` with the 1-based loop index (root copy). -/
def rootLinkFilename (i : Nat) : List Char :=
  ("TeraboxFile_").data ++ (Nat.repr (i + 1)).data ++ (".bin").data

/-- `f"TeraboxFile_{i}_{int(time.time())}"` (bot/modules copy). -/
def moduleLinkFilename (i t : Nat) : List Char :=
  ("TeraboxFile_").data ++ (Nat.repr (i + 1)).data ++ ("_").data ++ (Nat.repr t).data

/-- Per-link loop of the root `process_message` (lines 213-233):
every link is handed to `download_and_upload_file` in list order,
the returned ids are concatenated, and the loop never stops early
(each iteration's `try` swallows exceptions and continues). -/
def pmGoRoot (env : BatchEnv) :
    List (List Char) → Nat → List Nat → List (List Char) → TState →
    (List Nat × List (List Char) × TState)
  | [], _, acc, args, st => (acc, args, st)
  | link :: rest, i, acc, args, st =>
    let r := download_and_upload_file_root (env.resolve i) (rootLinkFilename i)
      ⟨env.fetch i, env.upload i⟩ st
    pmGoRoot env rest (i + 1) (acc ++ r.1) (args ++ [link]) r.2

/-- Per-link loop of the bot/modules `process_message` (lines
161-179); identical shape, different worker and filename. -/
def pmGoModule (env : BatchEnv) (t : Nat) :
    List (List Char) → Nat → List Nat → List (List Char) → TState →
    (List Nat × List (List Char) × TState)
  | [], _, acc, args, st => (acc, args, st)
  | link :: rest, i, acc, args, st =>
    let r := download_and_upload_file_module (env.resolve i) (moduleLinkFilename i t)
      ⟨env.fetch i, env.upload i⟩ st
    pmGoModule env t rest (i + 1) (acc ++ r.1) (args ++ [link]) r.2

structure BatchOut where
  allIds : List Nat
  args : List (List Char)
  reports : List Report
  tstate : TState
deriving DecidableEq

/-- `process_message` of the root copy, admitted path: process every
link, then `if all_uploaded_file_ids:` send exactly one summary whose
text is `original_text[:500]` with an ellipsis marker beyond 500. -/
def process_message_root (text : List Char) (links : List (List Char))
    (env : BatchEnv) (st : TState) : BatchOut :=
  let r := pmGoRoot env links 0 [] [] st
  { allIds := r.1
  , args := r.2.1
  , reports :=
      if r.1 = [] then []
      else [⟨text.take 500, decide (text.length > 500), links, r.1⟩]
  , tstate := r.2.2 }

/-- `process_message` of the bot/modules copy: truncation bound 400. -/
def process_message_module (text : List Char) (links : List (List Char))
    (env : BatchEnv) (st : TState) (t : Nat) : BatchOut :=
  let r := pmGoModule env t links 0 [] [] st
  { allIds := r.1
  , args := r.2.1
  , reports :=
      if r.1 = [] then []
      else [⟨text.take 400, decide (text.length > 400), links, r.1⟩]
  , tstate := r.2.2 }

/-! ## Status handlers -/

/-- The mutable per-processor state relevant to status. -/
structure ProcessorSt where
  active_downloads : Int
deriving DecidableEq

/-- `TeraboxProcessor.__init__`: the counter starts at zero. -/
def teraboxProcessor_new : ProcessorSt := ⟨0⟩

structure StatusView where
  active_shown : Int
  max_shown : Nat
  queue_shown : Nat
  cap_shown : Nat
  processing_shown : Bool
deriving DecidableEq

/-- `status_terabox` of the root copy (lines 366-376): it constructs
a fresh `TeraboxProcessor()` and reports that instance's counter,
not the live one held by the queue-processing loop (`live`). Queue
depth and the processing flag are read from the live globals. -/
def status_terabox (live : ProcessorSt) (queueLen : Nat) (flag : Bool) : StatusView :=
  { active_shown := teraboxProcessor_new.active_downloads
  , max_shown := MAX_CONCURRENT_DOWNLOADS
  , queue_shown := queueLen
  , cap_shown := QUEUE_MAX_SIZE
  , processing_shown := flag }

/-- `terabox_status` of the bot/modules copy (lines 303-315): it
reads the module-level shared `terabox_processor` instance, the same
one the queue-processing loop mutates. -/
def terabox_status (live : ProcessorSt) (queueLen : Nat) (flag : Bool) : StatusView :=
  { active_shown := live.active_downloads
  , max_shown := MAX_CONCURRENT_DOWNLOADS
  , queue_shown := queueLen
  , cap_shown := QUEUE_MAX_SIZE
  , processing_shown := flag }

/-! ## Supporting lemmas -/

theorem queueStates_bounded {α : Type} : ∀ (ops : List (QOp α)) (q : List α),
    q.length ≤ QUEUE_MAX_SIZE →
    ∀ s ∈ queueStates QUEUE_MAX_SIZE ops q, s.length ≤ QUEUE_MAX_SIZE := by
  intro ops
  induction ops with
  | nil =>
    intro q hq s hs
    simp only [queueStates, List.mem_singleton] at hs
    subst hs
    exact hq
  | cons op ops ih =>
    intro q hq s hs
    simp only [queueStates, List.mem_cons] at hs
    rcases hs with rfl | hs
    · exact hq
    · refine ih _ ?_ s hs
      cases op with
      | put x =>
        simp only [queueStep, put_nowait]
        by_cases hc : 0 < QUEUE_MAX_SIZE ∧ QUEUE_MAX_SIZE ≤ q.length
        · rw [if_pos hc]
          exact hq
        · rw [if_neg hc]
          have hlt : q.length < QUEUE_MAX_SIZE := by
            rcases Nat.lt_or_ge q.length QUEUE_MAX_SIZE with h | h
            · exact h
            · exact absurd ⟨by norm_num [QUEUE_MAX_SIZE], h⟩ hc
          simpa using hlt
      | take =>
        cases q with
        | nil => simpa [queueStep, get_nowait] using hq
        | cons a as =>
          simp only [queueStep, get_nowait]
          simp only [List.length_cons] at hq
          omega

theorem pmGoRoot_args (env : BatchEnv) : ∀ (links : List (List Char)) (i : Nat)
    (acc : List Nat) (args : List (List Char)) (st : TState),
    (pmGoRoot env links i acc args st).2.1 = args ++ links := by
  intro links
  induction links with
  | nil => intro i acc args st; simp [pmGoRoot]
  | cons link rest ih =>
    intro i acc args st
    simp only [pmGoRoot]
    rw [ih]
    simp

theorem pmGoModule_args (env : BatchEnv) (t : Nat) : ∀ (links : List (List Char)) (i : Nat)
    (acc : List Nat) (args : List (List Char)) (st : TState),
    (pmGoModule env t links i acc args st).2.1 = args ++ links := by
  intro links
  induction links with
  | nil => intro i acc args st; simp [pmGoModule]
  | cons link rest ih =>
    intro i acc args st
    simp only [pmGoModule]
    rw [ih]
    simp

/-- Attempt traces of the root worker: every recorded fetch or upload
attempt has attempt index 0, sub-file indices are strictly increasing
(so no stage is ever re-attempted for the same sub-file). -/
theorem dlRootGo_att (env : LinkEnv) : ∀ (pairs : List (List Char × List Char)) (i : Nat)
    (ids : List Nat) (st : TState),
    ∃ ft ut,
      (dlRootGo env pairs i ids st).2.fAtt = st.fAtt ++ ft ∧
      (dlRootGo env pairs i ids st).2.uAtt = st.uAtt ++ ut ∧
      (∀ a ∈ ft, a.2 = 0 ∧ i ≤ a.1) ∧ (∀ a ∈ ut, a.2 = 0 ∧ i ≤ a.1) ∧
      List.Pairwise (fun a b => a.1 < b.1) ft ∧
      List.Pairwise (fun a b => a.1 < b.1) ut := by
  intro pairs
  induction pairs with
  | nil =>
    intro i ids st
    exact ⟨[], [], by simp [dlRootGo], by simp [dlRootGo], by simp, by simp, by simp, by simp⟩
  | cons p rest ih =>
    obtain ⟨u, name⟩ := p
    intro i ids st
    cases hf : env.fetch i 0 with
    | statusErr =>
      refine ⟨[(i, 0)], [], by simp [dlRootGo, hf], by simp [dlRootGo, hf], ?_, by simp, by simp, by simp⟩
      intro a ha
      simp only [List.mem_singleton] at ha
      subst ha
      exact ⟨rfl, le_refl i⟩
    | midErr =>
      refine ⟨[(i, 0)], [], by simp [dlRootGo, hf], by simp [dlRootGo, hf], ?_, by simp, by simp, by simp⟩
      intro a ha
      simp only [List.mem_singleton] at ha
      subst ha
      exact ⟨rfl, le_refl i⟩
    | ok =>
      cases hu : env.upload i 0 with
      | sent mid =>
        obtain ⟨ft, ut, h1, h2, h3, h4, h5, h6⟩ := ih (i + 1) (ids ++ [mid])
          { relayed := st.relayed ++ [mid]
          , fs := fsErase (rootTemp name) (fsInsert (rootTemp name) st.fs)
          , fAtt := st.fAtt ++ [(i, 0)], uAtt := st.uAtt ++ [(i, 0)] }
        refine ⟨(i, 0) :: ft, (i, 0) :: ut, ?_, ?_, ?_, ?_, ?_, ?_⟩
        · simpa [dlRootGo, hf, hu] using h1
        · simpa [dlRootGo, hf, hu] using h2
        · intro a ha
          rcases List.mem_cons.mp ha with rfl | ha
          · exact ⟨rfl, le_refl i⟩
          · exact ⟨(h3 a ha).1, Nat.le_of_succ_le (h3 a ha).2⟩
        · intro a ha
          rcases List.mem_cons.mp ha with rfl | ha
          · exact ⟨rfl, le_refl i⟩
          · exact ⟨(h4 a ha).1, Nat.le_of_succ_le (h4 a ha).2⟩
        · exact List.pairwise_cons.mpr ⟨fun a ha => (h3 a ha).2, h5⟩
        · exact List.pairwise_cons.mpr ⟨fun a ha => (h4 a ha).2, h6⟩
      | fail =>
        obtain ⟨ft, ut, h1, h2, h3, h4, h5, h6⟩ := ih (i + 1) ids
          { relayed := st.relayed
          , fs := fsErase (rootTemp name) (fsInsert (rootTemp name) st.fs)
          , fAtt := st.fAtt ++ [(i, 0)], uAtt := st.uAtt ++ [(i, 0)] }
        refine ⟨(i, 0) :: ft, (i, 0) :: ut, ?_, ?_, ?_, ?_, ?_, ?_⟩
        · simpa [dlRootGo, hf, hu] using h1
        · simpa [dlRootGo, hf, hu] using h2
        · intro a ha
          rcases List.mem_cons.mp ha with rfl | ha
          · exact ⟨rfl, le_refl i⟩
          · exact ⟨(h3 a ha).1, Nat.le_of_succ_le (h3 a ha).2⟩
        · intro a ha
          rcases List.mem_cons.mp ha with rfl | ha
          · exact ⟨rfl, le_refl i⟩
          · exact ⟨(h4 a ha).1, Nat.le_of_succ_le (h4 a ha).2⟩
        · exact List.pairwise_cons.mpr ⟨fun a ha => (h3 a ha).2, h5⟩
        · exact List.pairwise_cons.mpr ⟨fun a ha => (h4 a ha).2, h6⟩

/-- Attempt traces of the bot/modules worker: attempt index always 0,
sub-file indices strictly increasing. -/
theorem dlModGo_att (env : LinkEnv) : ∀ (pairs : List (List Char × List Char)) (i : Nat)
    (lastTemp : Option (List Char)) (ids : List Nat) (st : TState),
    ∃ ft ut,
      (dlModGo env pairs i lastTemp ids st).2.fAtt = st.fAtt ++ ft ∧
      (dlModGo env pairs i lastTemp ids st).2.uAtt = st.uAtt ++ ut ∧
      (∀ a ∈ ft, a.2 = 0 ∧ i ≤ a.1) ∧ (∀ a ∈ ut, a.2 = 0 ∧ i ≤ a.1) ∧
      List.Pairwise (fun a b => a.1 < b.1) ft ∧
      List.Pairwise (fun a b => a.1 < b.1) ut := by
  intro pairs
  induction pairs with
  | nil =>
    intro i lastTemp ids st
    exact ⟨[], [], by simp [dlModGo], by simp [dlModGo], by simp, by simp, by simp, by simp⟩
  | cons p rest ih =>
    obtain ⟨u, name⟩ := p
    intro i lastTemp ids st
    cases hf : env.fetch i 0 with
    | statusErr =>
      cases lastTemp with
      | none =>
        refine ⟨[(i, 0)], [], by simp [dlModGo, hf], by simp [dlModGo, hf], ?_, by simp,
          by simp, by simp⟩
        intro a ha
        simp only [List.mem_singleton] at ha
        subst ha
        exact ⟨rfl, le_refl i⟩
      | some q =>
        obtain ⟨ft, ut, h1, h2, h3, h4, h5, h6⟩ := ih (i + 1) (some q) ids
          { relayed := st.relayed
          , fs := if q ∈ st.fs then fsErase q st.fs else st.fs
          , fAtt := st.fAtt ++ [(i, 0)], uAtt := st.uAtt }
        refine ⟨(i, 0) :: ft, ut, ?_, ?_, ?_, ?_, ?_, h6⟩
        · simpa [dlModGo, hf] using h1
        · simpa [dlModGo, hf] using h2
        · intro a ha
          rcases List.mem_cons.mp ha with rfl | ha
          · exact ⟨rfl, le_refl i⟩
          · exact ⟨(h3 a ha).1, Nat.le_of_succ_le (h3 a ha).2⟩
        · exact fun a ha => ⟨(h4 a ha).1, Nat.le_of_succ_le (h4 a ha).2⟩
        · exact List.pairwise_cons.mpr ⟨fun a ha => (h3 a ha).2, h5⟩
    | midErr =>
      obtain ⟨ft, ut, h1, h2, h3, h4, h5, h6⟩ := ih (i + 1) (some (moduleTemp name)) ids
        { relayed := st.relayed
        , fs := if moduleTemp name ∈ fsInsert (moduleTemp name) st.fs then
            fsErase (moduleTemp name) (fsInsert (moduleTemp name) st.fs)
          else fsInsert (moduleTemp name) st.fs
        , fAtt := st.fAtt ++ [(i, 0)], uAtt := st.uAtt }
      refine ⟨(i, 0) :: ft, ut, ?_, ?_, ?_, ?_, ?_, h6⟩
      · simpa [dlModGo, hf] using h1
      · simpa [dlModGo, hf] using h2
      · intro a ha
        rcases List.mem_cons.mp ha with rfl | ha
        · exact ⟨rfl, le_refl i⟩
        · exact ⟨(h3 a ha).1, Nat.le_of_succ_le (h3 a ha).2⟩
      · exact fun a ha => ⟨(h4 a ha).1, Nat.le_of_succ_le (h4 a ha).2⟩
      · exact List.pairwise_cons.mpr ⟨fun a ha => (h3 a ha).2, h5⟩
    | ok =>
      cases hu : env.upload i 0 with
      | sent mid =>
        obtain ⟨ft, ut, h1, h2, h3, h4, h5, h6⟩ := ih (i + 1) (some (moduleTemp name)) (ids ++ [mid])
          { relayed := st.relayed ++ [mid]
          , fs := if moduleTemp name ∈ fsInsert (moduleTemp name) st.fs then
              fsErase (moduleTemp name) (fsInsert (moduleTemp name) st.fs)
            else fsInsert (moduleTemp name) st.fs
          , fAtt := st.fAtt ++ [(i, 0)], uAtt := st.uAtt ++ [(i, 0)] }
        refine ⟨(i, 0) :: ft, (i, 0) :: ut, ?_, ?_, ?_, ?_, ?_, ?_⟩
        · simpa [dlModGo, hf, hu] using h1
        · simpa [dlModGo, hf, hu] using h2
        · intro a ha
          rcases List.mem_cons.mp ha with rfl | ha
          · exact ⟨rfl, le_refl i⟩
          · exact ⟨(h3 a ha).1, Nat.le_of_succ_le (h3 a ha).2⟩
        · intro a ha
          rcases List.mem_cons.mp ha with rfl | ha
          · exact ⟨rfl, le_refl i⟩
          · exact ⟨(h4 a ha).1, Nat.le_of_succ_le (h4 a ha).2⟩
        · exact List.pairwise_cons.mpr ⟨fun a ha => (h3 a ha).2, h5⟩
        · exact List.pairwise_cons.mpr ⟨fun a ha => (h4 a ha).2, h6⟩
      | fail =>
        obtain ⟨ft, ut, h1, h2, h3, h4, h5, h6⟩ := ih (i + 1) (some (moduleTemp name)) ids
          { relayed := st.relayed
          , fs := if moduleTemp name ∈ fsInsert (moduleTemp name) st.fs then
              fsErase (moduleTemp name) (fsInsert (moduleTemp name) st.fs)
            else fsInsert (moduleTemp name) st.fs
          , fAtt := st.fAtt ++ [(i, 0)], uAtt := st.uAtt ++ [(i, 0)] }
        refine ⟨(i, 0) :: ft, (i, 0) :: ut, ?_, ?_, ?_, ?_, ?_, ?_⟩
        · simpa [dlModGo, hf, hu] using h1
        · simpa [dlModGo, hf, hu] using h2
        · intro a ha
          rcases List.mem_cons.mp ha with rfl | ha
          · exact ⟨rfl, le_refl i⟩
          · exact ⟨(h3 a ha).1, Nat.le_of_succ_le (h3 a ha).2⟩
        · intro a ha
          rcases List.mem_cons.mp ha with rfl | ha
          · exact ⟨rfl, le_refl i⟩
          · exact ⟨(h4 a ha).1, Nat.le_of_succ_le (h4 a ha).2⟩
        · exact List.pairwise_cons.mpr ⟨fun a ha => (h3 a ha).2, h5⟩
        · exact List.pairwise_cons.mpr ⟨fun a ha => (h4 a ha).2, h6⟩

/-- Once `temp_file_path` has been assigned (lastTemp is some), the
bot/modules worker never aborts: the returned list extends the
accumulator by exactly the ids of the successful uploads. -/
theorem dlModGo_relayed (env : LinkEnv) : ∀ (pairs : List (List Char × List Char)) (i : Nat)
    (p : List Char) (ids : List Nat) (st : TState),
    ∃ d2, (dlModGo env pairs i (some p) ids st).2.relayed = st.relayed ++ d2 ∧
      (dlModGo env pairs i (some p) ids st).1 = ids ++ d2 := by
  intro pairs
  induction pairs with
  | nil =>
    intro i p ids st
    exact ⟨[], by simp [dlModGo], by simp [dlModGo]⟩
  | cons pr rest ih =>
    obtain ⟨u, name⟩ := pr
    intro i p ids st
    cases hf : env.fetch i 0 with
    | statusErr =>
      obtain ⟨d2, h1, h2⟩ := ih (i + 1) p ids
        { relayed := st.relayed
        , fs := if p ∈ st.fs then fsErase p st.fs else st.fs
        , fAtt := st.fAtt ++ [(i, 0)], uAtt := st.uAtt }
      exact ⟨d2, by simpa [dlModGo, hf] using h1, by simpa [dlModGo, hf] using h2⟩
    | midErr =>
      obtain ⟨d2, h1, h2⟩ := ih (i + 1) (moduleTemp name) ids
        { relayed := st.relayed
        , fs := if moduleTemp name ∈ fsInsert (moduleTemp name) st.fs then
            fsErase (moduleTemp name) (fsInsert (moduleTemp name) st.fs)
          else fsInsert (moduleTemp name) st.fs
        , fAtt := st.fAtt ++ [(i, 0)], uAtt := st.uAtt }
      exact ⟨d2, by simpa [dlModGo, hf] using h1, by simpa [dlModGo, hf] using h2⟩
    | ok =>
      cases hu : env.upload i 0 with
      | sent mid =>
        obtain ⟨d2, h1, h2⟩ := ih (i + 1) (moduleTemp name) (ids ++ [mid])
          { relayed := st.relayed ++ [mid]
          , fs := if moduleTemp name ∈ fsInsert (moduleTemp name) st.fs then
              fsErase (moduleTemp name) (fsInsert (moduleTemp name) st.fs)
            else fsInsert (moduleTemp name) st.fs
          , fAtt := st.fAtt ++ [(i, 0)], uAtt := st.uAtt ++ [(i, 0)] }
        refine ⟨[mid] ++ d2, ?_, ?_⟩
        · rw [← List.append_assoc]
          simpa [dlModGo, hf, hu] using h1
        · rw [← List.append_assoc]
          simpa [dlModGo, hf, hu] using h2
      | fail =>
        obtain ⟨d2, h1, h2⟩ := ih (i + 1) (moduleTemp name) ids
          { relayed := st.relayed
          , fs := if moduleTemp name ∈ fsInsert (moduleTemp name) st.fs then
              fsErase (moduleTemp name) (fsInsert (moduleTemp name) st.fs)
            else fsInsert (moduleTemp name) st.fs
          , fAtt := st.fAtt ++ [(i, 0)], uAtt := st.uAtt ++ [(i, 0)] }
        exact ⟨d2, by simpa [dlModGo, hf, hu] using h1, by simpa [dlModGo, hf, hu] using h2⟩

/-- The bot/modules `download_and_upload_file` returns exactly the
ids of the uploads that succeeded during this call: even the
unbound-local abort on a first-sub-file status error can discard
nothing, because nothing was uploaded yet at that point. -/
theorem dlMod_top_relayed (env : LinkEnv) (res : Option Resolved) (filename : List Char)
    (st : TState) :
    ∃ d2, (download_and_upload_file_module res filename env st).2.relayed = st.relayed ++ d2 ∧
      (download_and_upload_file_module res filename env st).1 = d2 := by
  cases res with
  | none => exact ⟨[], by simp [download_and_upload_file_module], by simp [download_and_upload_file_module]⟩
  | some r =>
    show ∃ d2, (dlModGo env (resolvedPairs r filename) 0 none [] st).2.relayed = st.relayed ++ d2 ∧
      (dlModGo env (resolvedPairs r filename) 0 none [] st).1 = d2
    cases hp : resolvedPairs r filename with
    | nil => exact ⟨[], by simp [dlModGo], by simp [dlModGo]⟩
    | cons pr rest =>
      obtain ⟨u, name⟩ := pr
      cases hf : env.fetch 0 0 with
      | statusErr => exact ⟨[], by simp [dlModGo, hf], by simp [dlModGo, hf]⟩
      | midErr =>
        obtain ⟨d2, h1, h2⟩ := dlModGo_relayed env rest 1 (moduleTemp name) []
          { relayed := st.relayed
          , fs := if moduleTemp name ∈ fsInsert (moduleTemp name) st.fs then
              fsErase (moduleTemp name) (fsInsert (moduleTemp name) st.fs)
            else fsInsert (moduleTemp name) st.fs
          , fAtt := st.fAtt ++ [(0, 0)], uAtt := st.uAtt }
        exact ⟨d2, by simpa [dlModGo, hf] using h1, by simpa [dlModGo, hf] using h2⟩
      | ok =>
        cases hu : env.upload 0 0 with
        | sent mid =>
          obtain ⟨d2, h1, h2⟩ := dlModGo_relayed env rest 1 (moduleTemp name) ([] ++ [mid])
            { relayed := st.relayed ++ [mid]
            , fs := if moduleTemp name ∈ fsInsert (moduleTemp name) st.fs then
                fsErase (moduleTemp name) (fsInsert (moduleTemp name) st.fs)
              else fsInsert (moduleTemp name) st.fs
            , fAtt := st.fAtt ++ [(0, 0)], uAtt := st.uAtt ++ [(0, 0)] }
          refine ⟨[mid] ++ d2, ?_, ?_⟩
          · rw [← List.append_assoc]
            simpa [dlModGo, hf, hu] using h1
          · simpa [dlModGo, hf, hu] using h2
        | fail =>
          obtain ⟨d2, h1, h2⟩ := dlModGo_relayed env rest 1 (moduleTemp name) []
            { relayed := st.relayed
            , fs := if moduleTemp name ∈ fsInsert (moduleTemp name) st.fs then
                fsErase (moduleTemp name) (fsInsert (moduleTemp name) st.fs)
              else fsInsert (moduleTemp name) st.fs
            , fAtt := st.fAtt ++ [(0, 0)], uAtt := st.uAtt ++ [(0, 0)] }
          exact ⟨d2, by simpa [dlModGo, hf, hu] using h1, by simpa [dlModGo, hf, hu] using h2⟩

/-- At batch level (bot/modules copy), the aggregated id list equals
the full list of successful relays of the batch. -/
theorem pmGoModule_relayed (env : BatchEnv) (t : Nat) : ∀ (links : List (List Char)) (i : Nat)
    (acc : List Nat) (args : List (List Char)) (st : TState),
    ∃ d2, (pmGoModule env t links i acc args st).2.2.relayed = st.relayed ++ d2 ∧
      (pmGoModule env t links i acc args st).1 = acc ++ d2 := by
  intro links
  induction links with
  | nil =>
    intro i acc args st
    exact ⟨[], by simp [pmGoModule], by simp [pmGoModule]⟩
  | cons link rest ih =>
    intro i acc args st
    obtain ⟨d1, hd1, hr1⟩ := dlMod_top_relayed ⟨env.fetch i, env.upload i⟩
      (env.resolve i) (moduleLinkFilename i t) st
    obtain ⟨d2, hd2, hr2⟩ := ih (i + 1) (acc ++ (download_and_upload_file_module
      (env.resolve i) (moduleLinkFilename i t) ⟨env.fetch i, env.upload i⟩ st).1)
      (args ++ [link])
      (download_and_upload_file_module (env.resolve i) (moduleLinkFilename i t)
        ⟨env.fetch i, env.upload i⟩ st).2
    refine ⟨d1 ++ d2, ?_, ?_⟩
    · simp only [pmGoModule]
      rw [hd2, hd1, List.append_assoc]
    · simp only [pmGoModule]
      rw [hr2, hr1, List.append_assoc]

theorem range_shift_map (n i : Nat) :
    (List.range (n + 1)).map (fun k => ((i + k, 0) : Nat × Nat))
      = (i, 0) :: (List.range n).map (fun k => (i + 1 + k, 0)) := by
  rw [List.range_succ_eq_map]
  simp only [List.map_cons, Nat.add_zero, List.map_map]
  congr 1
  apply List.map_congr_left
  intro k _
  simp only [Function.comp_apply]
  congr 1
  omega

/-- With `temp_file_path` already assigned, the bot/modules worker
reaches every remaining sub-file: its fetch-attempt trace covers all
indices, whatever the fetch and upload outcomes. -/
theorem dlModGo_cover (env : LinkEnv) : ∀ (pairs : List (List Char × List Char)) (i : Nat)
    (p : List Char) (ids : List Nat) (st : TState),
    (dlModGo env pairs i (some p) ids st).2.fAtt
      = st.fAtt ++ (List.range pairs.length).map (fun k => (i + k, 0)) := by
  intro pairs
  induction pairs with
  | nil => intro i p ids st; simp [dlModGo]
  | cons pr rest ih =>
    obtain ⟨u, name⟩ := pr
    intro i p ids st
    rw [List.length_cons, range_shift_map]
    cases hf : env.fetch i 0 with
    | statusErr =>
      have h := ih (i + 1) p ids
        { relayed := st.relayed
        , fs := if p ∈ st.fs then fsErase p st.fs else st.fs
        , fAtt := st.fAtt ++ [(i, 0)], uAtt := st.uAtt }
      simpa [dlModGo, hf] using h
    | midErr =>
      have h := ih (i + 1) (moduleTemp name) ids
        { relayed := st.relayed
        , fs := if moduleTemp name ∈ fsInsert (moduleTemp name) st.fs then
            fsErase (moduleTemp name) (fsInsert (moduleTemp name) st.fs)
          else fsInsert (moduleTemp name) st.fs
        , fAtt := st.fAtt ++ [(i, 0)], uAtt := st.uAtt }
      simpa [dlModGo, hf] using h
    | ok =>
      cases hu : env.upload i 0 with
      | sent mid =>
        have h := ih (i + 1) (moduleTemp name) (ids ++ [mid])
          { relayed := st.relayed ++ [mid]
          , fs := if moduleTemp name ∈ fsInsert (moduleTemp name) st.fs then
              fsErase (moduleTemp name) (fsInsert (moduleTemp name) st.fs)
            else fsInsert (moduleTemp name) st.fs
          , fAtt := st.fAtt ++ [(i, 0)], uAtt := st.uAtt ++ [(i, 0)] }
        simpa [dlModGo, hf, hu] using h
      | fail =>
        have h := ih (i + 1) (moduleTemp name) ids
          { relayed := st.relayed
          , fs := if moduleTemp name ∈ fsInsert (moduleTemp name) st.fs then
              fsErase (moduleTemp name) (fsInsert (moduleTemp name) st.fs)
            else fsInsert (moduleTemp name) st.fs
          , fAtt := st.fAtt ++ [(i, 0)], uAtt := st.uAtt ++ [(i, 0)] }
        simpa [dlModGo, hf, hu] using h

/-- When every fetch succeeds, the root worker reaches every
sub-file, attempts every upload once, and returns exactly the ids of
the successful uploads. -/
theorem dlRootGo_ok_cover (env : LinkEnv) : ∀ (pairs : List (List Char × List Char)) (i : Nat)
    (ids : List Nat) (st : TState),
    (∀ k, k < pairs.length → env.fetch (i + k) 0 = FetchOutcome.ok) →
    ∃ d2,
      (dlRootGo env pairs i ids st).2.fAtt
        = st.fAtt ++ (List.range pairs.length).map (fun k => (i + k, 0)) ∧
      (dlRootGo env pairs i ids st).2.uAtt
        = st.uAtt ++ (List.range pairs.length).map (fun k => (i + k, 0)) ∧
      (dlRootGo env pairs i ids st).2.relayed = st.relayed ++ d2 ∧
      (dlRootGo env pairs i ids st).1 = ids ++ d2 := by
  intro pairs
  induction pairs with
  | nil =>
    intro i ids st _
    exact ⟨[], by simp [dlRootGo], by simp [dlRootGo], by simp [dlRootGo], by simp [dlRootGo]⟩
  | cons pr rest ih =>
    obtain ⟨u, name⟩ := pr
    intro i ids st hok
    have hf : env.fetch i 0 = FetchOutcome.ok := by
      have := hok 0 (by simp)
      simpa using this
    have hrest : ∀ k, k < rest.length → env.fetch (i + 1 + k) 0 = FetchOutcome.ok := by
      intro k hk
      have := hok (k + 1) (by simp; omega)
      have he : i + (k + 1) = i + 1 + k := by omega
      rwa [he] at this
    rw [List.length_cons, range_shift_map]
    cases hu : env.upload i 0 with
    | sent mid =>
      obtain ⟨d2, h1, h2, h3, h4⟩ := ih (i + 1) (ids ++ [mid])
        { relayed := st.relayed ++ [mid]
        , fs := fsErase (rootTemp name) (fsInsert (rootTemp name) st.fs)
        , fAtt := st.fAtt ++ [(i, 0)], uAtt := st.uAtt ++ [(i, 0)] } hrest
      refine ⟨[mid] ++ d2, ?_, ?_, ?_, ?_⟩
      · simpa [dlRootGo, hf, hu] using h1
      · simpa [dlRootGo, hf, hu] using h2
      · rw [← List.append_assoc]
        simpa [dlRootGo, hf, hu] using h3
      · rw [← List.append_assoc]
        simpa [dlRootGo, hf, hu] using h4
    | fail =>
      obtain ⟨d2, h1, h2, h3, h4⟩ := ih (i + 1) ids
        { relayed := st.relayed
        , fs := fsErase (rootTemp name) (fsInsert (rootTemp name) st.fs)
        , fAtt := st.fAtt ++ [(i, 0)], uAtt := st.uAtt ++ [(i, 0)] } hrest
      exact ⟨d2, by simpa [dlRootGo, hf, hu] using h1, by simpa [dlRootGo, hf, hu] using h2,
        by simpa [dlRootGo, hf, hu] using h3, by simpa [dlRootGo, hf, hu] using h4⟩

/-- Unless the very first sub-file fails at the status stage (the
only aborting case), the bot/modules worker attempts a fetch for
every sub-file of a multi-file resolution. -/
theorem dlMod_top_cover (env : LinkEnv) (pairs : List (List Char × List Char))
    (filename : List Char) (st : TState) (h : env.fetch 0 0 ≠ FetchOutcome.statusErr) :
    (download_and_upload_file_module (some (Resolved.multi pairs)) filename env st).2.fAtt
      = st.fAtt ++ (List.range pairs.length).map (fun k => (k, 0)) := by
  show (dlModGo env pairs 0 none [] st).2.fAtt = _
  cases pairs with
  | nil => simp [dlModGo]
  | cons pr rest =>
    obtain ⟨u, name⟩ := pr
    rw [List.length_cons]
    have hz : (List.range (rest.length + 1)).map (fun k => ((k, 0) : Nat × Nat))
        = (0, 0) :: (List.range rest.length).map (fun k => (1 + k, 0)) := by
      simpa using range_shift_map rest.length 0
    rw [hz]
    cases hf : env.fetch 0 0 with
    | statusErr => exact absurd hf h
    | midErr =>
      have hc := dlModGo_cover env rest 1 (moduleTemp name) []
        { relayed := st.relayed
        , fs := if moduleTemp name ∈ fsInsert (moduleTemp name) st.fs then
            fsErase (moduleTemp name) (fsInsert (moduleTemp name) st.fs)
          else fsInsert (moduleTemp name) st.fs
        , fAtt := st.fAtt ++ [(0, 0)], uAtt := st.uAtt }
      simpa [dlModGo, hf] using hc
    | ok =>
      cases hu : env.upload 0 0 with
      | sent mid =>
        have hc := dlModGo_cover env rest 1 (moduleTemp name) ([] ++ [mid])
          { relayed := st.relayed ++ [mid]
          , fs := if moduleTemp name ∈ fsInsert (moduleTemp name) st.fs then
              fsErase (moduleTemp name) (fsInsert (moduleTemp name) st.fs)
            else fsInsert (moduleTemp name) st.fs
          , fAtt := st.fAtt ++ [(0, 0)], uAtt := st.uAtt ++ [(0, 0)] }
        simpa [dlModGo, hf, hu] using hc
      | fail =>
        have hc := dlModGo_cover env rest 1 (moduleTemp name) []
          { relayed := st.relayed
          , fs := if moduleTemp name ∈ fsInsert (moduleTemp name) st.fs then
              fsErase (moduleTemp name) (fsInsert (moduleTemp name) st.fs)
            else fsInsert (moduleTemp name) st.fs
          , fAtt := st.fAtt ++ [(0, 0)], uAtt := st.uAtt ++ [(0, 0)] }
        simpa [dlModGo, hf, hu] using hc

theorem attProps (l : List (Nat × Nat)) (h0 : ∀ a ∈ l, a.2 = 0 ∧ 0 ≤ a.1)
    (hp : List.Pairwise (fun a b => a.1 < b.1) l) :
    l.all (fun a => a.2 == 0) = true ∧ (l.map Prod.fst).Nodup := by
  constructor
  · rw [List.all_eq_true]
    intro a ha
    simp [(h0 a ha).1]
  · have hm : List.Pairwise (· < ·) (l.map Prod.fst) := List.pairwise_map.mpr hp
    exact hm.imp fun h => Nat.ne_of_lt h

theorem dlRoot_top_attprops (res : Option Resolved) (fname : List Char) (env : LinkEnv) :
    ((download_and_upload_file_root res fname env emptyT).2.fAtt.all (fun a => a.2 == 0) = true)
    ∧ (((download_and_upload_file_root res fname env emptyT).2.fAtt.map Prod.fst).Nodup)
    ∧ ((download_and_upload_file_root res fname env emptyT).2.uAtt.all (fun a => a.2 == 0) = true)
    ∧ (((download_and_upload_file_root res fname env emptyT).2.uAtt.map Prod.fst).Nodup) := by
  cases res with
  | none => simp [download_and_upload_file_root, emptyT]
  | some r =>
    obtain ⟨ft, ut, h1, h2, h3, h4, h5, h6⟩ := dlRootGo_att env (resolvedPairs r fname) 0 [] emptyT
    have e1 : (dlRootGo env (resolvedPairs r fname) 0 [] emptyT).2.fAtt = ft := by rw [h1]; rfl
    have e2 : (dlRootGo env (resolvedPairs r fname) 0 [] emptyT).2.uAtt = ut := by rw [h2]; rfl
    have hf := attProps ft h3 h5
    have hu := attProps ut h4 h6
    simp only [download_and_upload_file_root, e1, e2]
    exact ⟨hf.1, hf.2, hu.1, hu.2⟩

theorem dlMod_top_attprops (res : Option Resolved) (fname : List Char) (env : LinkEnv) :
    ((download_and_upload_file_module res fname env emptyT).2.fAtt.all (fun a => a.2 == 0) = true)
    ∧ (((download_and_upload_file_module res fname env emptyT).2.fAtt.map Prod.fst).Nodup)
    ∧ ((download_and_upload_file_module res fname env emptyT).2.uAtt.all (fun a => a.2 == 0) = true)
    ∧ (((download_and_upload_file_module res fname env emptyT).2.uAtt.map Prod.fst).Nodup) := by
  cases res with
  | none => simp [download_and_upload_file_module, emptyT]
  | some r =>
    obtain ⟨ft, ut, h1, h2, h3, h4, h5, h6⟩ := dlModGo_att env (resolvedPairs r fname) 0 none [] emptyT
    have e1 : (dlModGo env (resolvedPairs r fname) 0 none [] emptyT).2.fAtt = ft := by rw [h1]; rfl
    have e2 : (dlModGo env (resolvedPairs r fname) 0 none [] emptyT).2.uAtt = ut := by rw [h2]; rfl
    have hf := attProps ft h3 h5
    have hu := attProps ut h4 h6
    simp only [download_and_upload_file_module, e1, e2]
    exact ⟨hf.1, hf.2, hu.1, hu.2⟩

/-! ## Concrete inputs used by counterexamples and witnesses -/

/-- A batch environment whose resolver always fails. -/
def envNone : BatchEnv :=
  ⟨fun _ => none, fun _ _ _ => FetchOutcome.statusErr, fun _ _ _ => UploadOutcome.fail⟩

/-- Fetch fails on attempt 0 and would succeed on attempt 1. -/
def c2env : LinkEnv :=
  ⟨fun _ a => if a = 0 then FetchOutcome.statusErr else FetchOutcome.ok,
   fun _ _ => UploadOutcome.sent 9⟩

/-- Every fetch dies partway through the chunked write. -/
def c3env : LinkEnv :=
  ⟨fun _ _ => FetchOutcome.midErr, fun _ _ => UploadOutcome.fail⟩

/-- Three resolved sub-files. -/
def c4pairs : List (List Char × List Char) :=
  [((("u1").data), (("a").data)), ((("u2").data), (("b").data)), ((("u3").data), (("c").data))]

/-- Sub-file 0 fetches fine, later sub-files fail at the status
stage; every attempted upload succeeds with id 7. -/
def c4env : LinkEnv :=
  ⟨fun i _ => if i = 0 then FetchOutcome.ok else FetchOutcome.statusErr,
   fun _ _ => UploadOutcome.sent 7⟩

/-- Two resolved sub-files. -/
def c4wpairs : List (List Char × List Char) :=
  [((("u1").data), (("a").data)), ((("u2").data), (("b").data))]

/-- All fetches succeed; the first upload succeeds, the second fails. -/
def c4wenv : LinkEnv :=
  ⟨fun _ _ => FetchOutcome.ok,
   fun i _ => if i = 0 then UploadOutcome.sent 5 else UploadOutcome.fail⟩

/-- One link resolving to two sub-files: sub-file 0 uploads as
message 101, sub-file 1 fails its fetch at the status stage. -/
def c5env : BatchEnv :=
  ⟨fun _ => some (Resolved.multi [((("u1").data), (("a").data)), ((("u2").data), (("b").data))]),
   fun _ sub _ => if sub = 0 then FetchOutcome.ok else FetchOutcome.statusErr,
   fun _ _ _ => UploadOutcome.sent 101⟩

/-- A message whose nephobox link appears before its terabox link. -/
def c8text : List Char := ("https://nephobox.com/a https://terabox.com/b").data

/-! ## Claims -/

/-- C1: the claim says the active-transfer counter always satisfies
0 <= count <= MAX_CONCURRENT_DOWNLOADS and a refused admission leaves
it unchanged. The code violates this: the refusal `return` sits
inside the `try` whose `finally` decrements, so the refused call
decrements a counter it never incremented. At the failing
interleaving below (three admitted calls in flight, a fourth call
refused at the ceiling, then all `finally` clauses run) the fourth
call's exit drags the counter from 3 to 2 and the trace ends at -1,
below zero. -/
theorem c1_refused_admission_decrements :
    validTrace refusalTrace = true
    ∧ runGate refusalTrace 0 = [1, 2, 3, 3, 2, 1, 0, -1]
    ∧ pmEnter 3 = 3
    ∧ pmFinally (pmEnter 3) = 2
    ∧ (runGate refusalTrace 0).getLast? = some (-1) := by decide

/-- C2, counterexample: the claim says a failed fetch is re-attempted
up to DOWNLOAD_RETRIES times before the link fails. With an oracle
whose fetch fails on attempt 0 and would succeed on attempt 1, the
root worker makes exactly one fetch attempt (attempt index 0 only)
and returns the empty outcome: no retry happens even though
DOWNLOAD_RETRIES = 3 would allow one. -/
theorem c2_no_retry_counterexample :
    (download_and_upload_file_root (some (Resolved.single (("u").data))) (("n").data)
      c2env emptyT).1 = []
    ∧ (download_and_upload_file_root (some (Resolved.single (("u").data))) (("n").data)
        c2env emptyT).2.fAtt = [(0, 0)]
    ∧ (download_and_upload_file_root (some (Resolved.single (("u").data))) (("n").data)
        c2env emptyT).2.uAtt = []
    ∧ c2env.fetch 0 1 = FetchOutcome.ok
    ∧ DOWNLOAD_RETRIES = 3 := by decide

/-- C2, amended: neither copy retries anything. Every fetch and
every upload attempt carries attempt index 0, and no sub-file is
attempted twice at the same stage (the attempted sub-file indices
are duplicate-free); the retry settings exist only in
`terabox_config.py` and are never consulted. -/
theorem c2_single_attempt_amended : ∀ (res : Option Resolved) (fname : List Char)
    (env : LinkEnv),
    ((download_and_upload_file_root res fname env emptyT).2.fAtt.all (fun a => a.2 == 0) = true)
    ∧ (((download_and_upload_file_root res fname env emptyT).2.fAtt.map Prod.fst).Nodup)
    ∧ ((download_and_upload_file_root res fname env emptyT).2.uAtt.all (fun a => a.2 == 0) = true)
    ∧ (((download_and_upload_file_root res fname env emptyT).2.uAtt.map Prod.fst).Nodup)
    ∧ ((download_and_upload_file_module res fname env emptyT).2.fAtt.all (fun a => a.2 == 0) = true)
    ∧ (((download_and_upload_file_module res fname env emptyT).2.fAtt.map Prod.fst).Nodup)
    ∧ ((download_and_upload_file_module res fname env emptyT).2.uAtt.all (fun a => a.2 == 0) = true)
    ∧ (((download_and_upload_file_module res fname env emptyT).2.uAtt.map Prod.fst).Nodup)
    ∧ DOWNLOAD_RETRIES = 3 ∧ UPLOAD_RETRIES = 2 ∧ RETRY_DELAY = 5 := by
  intro res fname env
  obtain ⟨r1, r2, r3, r4⟩ := dlRoot_top_attprops res fname env
  obtain ⟨m1, m2, m3, m4⟩ := dlMod_top_attprops res fname env
  exact ⟨r1, r2, r3, r4, m1, m2, m3, m4, rfl, rfl, rfl⟩

/-- C3: the claim (and the spec) require that a transfer failing
during FETCHING leaves no residual temporary file. In the root copy
a failure partway through the chunked write leaves `temp_{name}` on
disk: the exception propagates to the outer handler, which returns
`[]` without any cleanup (the only deletion sits in the upload's
`finally`, which is never reached). The sibling bot/modules copy
cleans the same failure up, confirming the cleanup intent. -/
theorem c3_root_partial_file_remains :
    (download_and_upload_file_root (some (Resolved.single (("u").data))) (("n1").data)
      c3env emptyT).2.fs = [("temp_n1").data]
    ∧ (download_and_upload_file_root (some (Resolved.single (("u").data))) (("n1").data)
        c3env emptyT).1 = []
    ∧ (download_and_upload_file_module (some (Resolved.single (("u").data))) (("n1").data)
        c3env emptyT).2.fs = [] := by decide

/-- C4, counterexample: the claim says sub-file failures are
isolated and all successfully relayed ids are returned. In the root
copy, with three resolved sub-files where sub-file 0 relays as id 7
and sub-file 1 fails its fetch, the call returns `[]` (discarding
the already-relayed id 7) and never attempts sub-file 2 (the fetch
trace stops at sub-file 1). -/
theorem c4_fetch_failure_not_isolated :
    download_and_upload_file_root (some (Resolved.multi c4pairs)) (("f").data) c4env emptyT
      = ([], ⟨[7], [], [(0, 0), (1, 0)], [(0, 0)]⟩) := by decide

/-- C4, amended: upload failures are isolated in both copies, and in
the bot/modules copy any failure is isolated and all relayed ids are
returned, with one exception: a status-stage fetch failure on the
first sub-file aborts the link (the cleanup handler trips over the
still-unassigned temp path). In the root copy isolation holds only
when every fetch succeeds. -/
theorem c4_isolation_amended : ∀ (pairs : List (List Char × List Char)) (env : LinkEnv)
    (f1 f2 : List Char),
    (env.fetch 0 0 ≠ FetchOutcome.statusErr →
      (download_and_upload_file_module (some (Resolved.multi pairs)) f1 env emptyT).2.fAtt
        = (List.range pairs.length).map (fun k => (k, 0)))
    ∧ ((download_and_upload_file_module (some (Resolved.multi pairs)) f1 env emptyT).1
        = (download_and_upload_file_module (some (Resolved.multi pairs)) f1 env emptyT).2.relayed)
    ∧ ((∀ k, k < pairs.length → env.fetch k 0 = FetchOutcome.ok) →
      (download_and_upload_file_root (some (Resolved.multi pairs)) f2 env emptyT).2.fAtt
        = (List.range pairs.length).map (fun k => (k, 0))
      ∧ (download_and_upload_file_root (some (Resolved.multi pairs)) f2 env emptyT).2.uAtt
        = (List.range pairs.length).map (fun k => (k, 0))
      ∧ (download_and_upload_file_root (some (Resolved.multi pairs)) f2 env emptyT).1
        = (download_and_upload_file_root (some (Resolved.multi pairs)) f2 env emptyT).2.relayed) := by
  intro pairs env f1 f2
  refine ⟨?_, ?_, ?_⟩
  · intro h
    have := dlMod_top_cover env pairs f1 emptyT h
    simpa using this
  · obtain ⟨d2, hrel, hret⟩ := dlMod_top_relayed env (some (Resolved.multi pairs)) f1 emptyT
    rw [hrel, hret]
    rfl
  · intro h
    have hsh : ∀ k, k < pairs.length → env.fetch (0 + k) 0 = FetchOutcome.ok := by
      intro k hk
      simpa using h k hk
    obtain ⟨d2, h1, h2, h3, h4⟩ := dlRootGo_ok_cover env pairs 0 [] emptyT hsh
    refine ⟨?_, ?_, ?_⟩
    · show (dlRootGo env pairs 0 [] emptyT).2.fAtt = _
      rw [h1]
      simp [emptyT]
    · show (dlRootGo env pairs 0 [] emptyT).2.uAtt = _
      rw [h2]
      simp [emptyT]
    · show (dlRootGo env pairs 0 [] emptyT).1 = (dlRootGo env pairs 0 [] emptyT).2.relayed
      rw [h3, h4]
      rfl

/-- C4, witness for the amended theorem at a concrete input: two
sub-files, all fetches fine, the second upload fails; the module
copy attempts both fetches, and the root copy returns exactly the
relayed ids. -/
theorem c4_isolation_amended_witness :
    (download_and_upload_file_module (some (Resolved.multi c4wpairs)) (("f").data)
      c4wenv emptyT).2.fAtt = (List.range c4wpairs.length).map (fun k => (k, 0))
    ∧ (download_and_upload_file_root (some (Resolved.multi c4wpairs)) (("g").data)
        c4wenv emptyT).1
      = (download_and_upload_file_root (some (Resolved.multi c4wpairs)) (("g").data)
          c4wenv emptyT).2.relayed :=
  ⟨(c4_isolation_amended c4wpairs c4wenv (("f").data) (("g").data)).1 (by decide),
   ((c4_isolation_amended c4wpairs c4wenv (("f").data) (("g").data)).2.2
     (fun k _ => rfl)).2.2⟩

/-- C5, counterexample: the claim says the report emitter runs
exactly once when at least one relay succeeded, with exactly the
successful ids. In the root copy, one link resolving to two
sub-files where sub-file 0 relays as message 101 and sub-file 1
fails its fetch produces zero reports, although relay 101 succeeded:
the link-level `return []` discards the id before aggregation. -/
theorem c5_success_without_report :
    (process_message_root (("t").data) [(("L").data)] c5env emptyT).reports = []
    ∧ (process_message_root (("t").data) [(("L").data)] c5env emptyT).tstate.relayed = [101] := by
  decide

theorem process_reports_shape_module (text : List Char) (links : List (List Char))
    (env : BatchEnv) (st : TState) (t : Nat) :
    (process_message_module text links env st t).reports.map Report.fileIds
      = (if (process_message_module text links env st t).allIds = [] then []
         else [(process_message_module text links env st t).allIds])
    ∧ (process_message_module text links env st t).reports.length
      = (if (process_message_module text links env st t).allIds = [] then 0 else 1) := by
  simp only [process_message_module]
  by_cases hnil : (pmGoModule env t links 0 [] [] st).1 = [] <;> simp [hnil]

theorem process_reports_shape_root (text : List Char) (links : List (List Char))
    (env : BatchEnv) (st : TState) :
    (process_message_root text links env st).reports.map Report.fileIds
      = (if (process_message_root text links env st).allIds = [] then []
         else [(process_message_root text links env st).allIds])
    ∧ (process_message_root text links env st).reports.length
      = (if (process_message_root text links env st).allIds = [] then 0 else 1) := by
  simp only [process_message_root]
  by_cases hnil : (pmGoRoot env links 0 [] [] st).1 = [] <;> simp [hnil]

/-- C5, amended: in both copies the emitter runs exactly once when
the aggregated id list is nonempty and never otherwise, and the one
report carries exactly that list; in the bot/modules copy the
aggregated list equals the ids of all successful relays of the
batch, but in the root copy (see the counterexample) successful
relays inside a link later aborted by a fetch failure are missing
from it. -/
theorem c5_report_amended : ∀ (text : List Char) (links : List (List Char)) (env : BatchEnv)
    (t : Nat) (text2 : List Char) (links2 : List (List Char)) (env2 : BatchEnv),
    (process_message_module text links env emptyT t).allIds
      = (process_message_module text links env emptyT t).tstate.relayed
    ∧ (process_message_module text links env emptyT t).reports.map Report.fileIds
      = (if (process_message_module text links env emptyT t).allIds = [] then []
         else [(process_message_module text links env emptyT t).allIds])
    ∧ (process_message_module text links env emptyT t).reports.length
      = (if (process_message_module text links env emptyT t).allIds = [] then 0 else 1)
    ∧ (process_message_root text2 links2 env2 emptyT).reports.map Report.fileIds
      = (if (process_message_root text2 links2 env2 emptyT).allIds = [] then []
         else [(process_message_root text2 links2 env2 emptyT).allIds])
    ∧ (process_message_root text2 links2 env2 emptyT).reports.length
      = (if (process_message_root text2 links2 env2 emptyT).allIds = [] then 0 else 1) := by
  intro text links env t text2 links2 env2
  obtain ⟨s1, s2⟩ := process_reports_shape_module text links env emptyT t
  obtain ⟨s3, s4⟩ := process_reports_shape_root text2 links2 env2 emptyT
  refine ⟨?_, s1, s2, s3, s4⟩
  obtain ⟨d2, h1, h2⟩ := pmGoModule_relayed env t links 0 [] [] emptyT
  show (pmGoModule env t links 0 [] [] emptyT).1
    = (pmGoModule env t links 0 [] [] emptyT).2.2.relayed
  rw [h1, h2]
  rfl

/-- C6: for every input text the extractor returns a duplicate-free
collection whose every element fully matches one of the 17
case-insensitive catalog patterns; the empty string and any text
containing no matching substring yield the empty result. -/
theorem c6_extract_props (text : List Char) :
    teraboxDomains.length = 17
    ∧ (extract_terabox_links text).Nodup
    ∧ (∀ m, m ∈ extract_terabox_links text →
        ∃ d, d ∈ teraboxDomains ∧ fullMatchB d m = true)
    ∧ extract_terabox_links [] = []
    ∧ (noMatch text = true → extract_terabox_links text = []) := by
  refine ⟨by decide, List.nodup_dedup _, ?_, by decide, extract_empty_of_noMatch text⟩
  intro m hm
  exact (extract_mem_sound text m hm).1

/-- C6, witness: the spec's own scenario link is extracted and fully
matches a catalog pattern, and a plain text with no link yields the
empty result. -/
theorem c6_extract_props_witness :
    (∃ d, d ∈ teraboxDomains ∧ fullMatchB d (("https://terabox.com/s/abc123").data) = true)
    ∧ extract_terabox_links (("hello world").data) = [] :=
  ⟨(c6_extract_props (("check this: https://terabox.com/s/abc123 thanks").data)).2.2.1
      (("https://terabox.com/s/abc123").data) (by decide),
   (c6_extract_props (("hello world").data)).2.2.2.2 (by decide)⟩

/-- C7: starting from an empty queue, every reachable state holds at
most QUEUE_MAX_SIZE items; an enqueue attempt is refused exactly
when the queue is at capacity (and otherwise appends the item); and
from a full queue, one dequeue makes the next enqueue succeed. -/
theorem c7_queue_props (ops : List (QOp Nat)) (q : List Nat) (x y : Nat) :
    (∀ s ∈ queueStates QUEUE_MAX_SIZE ops [], s.length ≤ QUEUE_MAX_SIZE)
    ∧ (q.length ≤ QUEUE_MAX_SIZE →
        put_nowait QUEUE_MAX_SIZE q x
          = if q.length = QUEUE_MAX_SIZE then none else some (q ++ [x]))
    ∧ (q.length = QUEUE_MAX_SIZE →
        ∀ z q2, get_nowait q = some (z, q2) →
          (put_nowait QUEUE_MAX_SIZE q2 y).isSome = true) := by
  refine ⟨queueStates_bounded ops [] (by simp), ?_, ?_⟩
  · intro hle
    unfold put_nowait
    by_cases he : q.length = QUEUE_MAX_SIZE
    · rw [if_pos he, if_pos ⟨by norm_num [QUEUE_MAX_SIZE], Nat.le_of_eq he.symm⟩]
    · rw [if_neg he, if_neg ?_]
      rintro ⟨_, hge⟩
      exact he (Nat.le_antisymm hle hge)
  · intro hq z q2 hget
    cases q with
    | nil => simp [get_nowait] at hget
    | cons a as =>
      simp only [get_nowait, Option.some.injEq, Prod.mk.injEq] at hget
      obtain ⟨-, rfl⟩ := hget
      unfold put_nowait
      rw [if_neg]
      · rfl
      · rintro ⟨-, hge⟩
        simp only [List.length_cons] at hq
        rw [QUEUE_MAX_SIZE] at hq hge
        omega

/-- C7, witness: a full queue of 100 items refuses the next enqueue;
after one dequeue the next enqueue is accepted. -/
theorem c7_queue_props_witness :
    put_nowait QUEUE_MAX_SIZE (List.replicate 100 (0 : Nat)) 1 = none
    ∧ (put_nowait QUEUE_MAX_SIZE (List.replicate 99 (0 : Nat)) 2).isSome = true := by
  constructor
  · have h := (c7_queue_props [] (List.replicate 100 (0 : Nat)) 1 1).2.1 (by decide)
    simpa using h
  · exact (c7_queue_props [] (List.replicate 100 (0 : Nat)) 2 2).2.2 (by decide) 0
      (List.replicate 99 (0 : Nat)) (by decide)

/-- C8, counterexample: the claim says links are processed in the
order of their first appearance in the message text. In the message
below the nephobox link occupies position 0 and the terabox link
comes later, yet the batch loop receives (and therefore processes)
the terabox link first, because the extractor scans pattern by
pattern in catalog order. -/
theorem c8_not_text_order :
    (process_message_root c8text (extract_terabox_links c8text) envNone emptyT).args
      = [("https://terabox.com/b").data, ("https://nephobox.com/a").data]
    ∧ c8text = (("https://nephobox.com/a").data) ++ [' '] ++ (("https://terabox.com/b").data) := by
  decide

/-- C8, amended: links of one batch are processed exactly in the
order of the extractor's returned list (no link is skipped or
reordered by the loop); that list groups matches by the fixed
pattern catalog before deduplication, so first-appearance order in
the text is not preserved across different domains. -/
theorem c8_extraction_list_order : ∀ (text : List Char) (links : List (List Char))
    (env env2 : BatchEnv) (st st2 : TState) (t : Nat),
    (process_message_root text links env st).args = links
    ∧ (process_message_module text links env2 st2 t).args = links := by
  intro text links env env2 st st2 t
  constructor
  · have h := pmGoRoot_args env links 0 [] [] st
    show (pmGoRoot env links 0 [] [] st).2.1 = links
    simpa using h
  · have h := pmGoModule_args env2 t links 0 [] [] st2
    show (pmGoModule env2 t links 0 [] [] st2).2.1 = links
    simpa using h

/-- C9, counterexample: the claim says the status query reports the
actual number of transfers in progress. The root copy's
`status_terabox` builds a fresh `TeraboxProcessor()` and prints that
instance's counter, so with one transfer in progress it still shows
0. -/
theorem c9_root_status_stale :
    (status_terabox ⟨1⟩ 5 true).active_shown = 0
    ∧ (status_terabox ⟨1⟩ 5 true).active_shown ≠ (⟨1⟩ : ProcessorSt).active_downloads := by
  decide

/-- C9, amended: the root copy's status reply always shows 0 active
transfers regardless of the live counter, while the bot/modules copy
reports the shared processor's live counter; queue depth, capacity
and the processing flag are reported live by both. -/
theorem c9_status_amended : ∀ (live : ProcessorSt) (q : Nat) (flag : Bool),
    (status_terabox live q flag).active_shown = 0
    ∧ (terabox_status live q flag).active_shown = live.active_downloads
    ∧ (status_terabox live q flag).queue_shown = q
    ∧ (status_terabox live q flag).cap_shown = QUEUE_MAX_SIZE
    ∧ (status_terabox live q flag).processing_shown = flag
    ∧ (terabox_status live q flag).queue_shown = q
    ∧ (terabox_status live q flag).cap_shown = QUEUE_MAX_SIZE
    ∧ (terabox_status live q flag).processing_shown = flag := by
  intro live q flag
  exact ⟨rfl, rfl, rfl, rfl, rfl, rfl, rfl, rfl⟩

/-- C10: the batch loop consults no per-message cap: even when a
message carries more links than MAX_LINKS_PER_MESSAGE (10), every
extracted link is handed to the transfer worker, in both copies. -/
theorem c10_all_links_processed : ∀ (text : List Char) (links : List (List Char))
    (env : BatchEnv) (st : TState) (t : Nat),
    links.length > MAX_LINKS_PER_MESSAGE →
    (process_message_root text links env st).args = links
    ∧ (process_message_module text links env st t).args = links := by
  intro text links env st t _
  constructor
  · have h := pmGoRoot_args env links 0 [] [] st
    show (pmGoRoot env links 0 [] [] st).2.1 = links
    simpa using h
  · have h := pmGoModule_args env t links 0 [] [] st
    show (pmGoModule env t links 0 [] [] st).2.1 = links
    simpa using h

/-- C10, witness: a batch of 11 links (above the configured cap of
10) is processed in full. -/
theorem c10_all_links_processed_witness :
    (process_message_root [] (List.replicate 11 (("L").data)) envNone emptyT).args
      = List.replicate 11 (("L").data) :=
  (c10_all_links_processed [] (List.replicate 11 (("L").data)) envNone emptyT 0
    (by decide)).1
